import Mathlib

/-!
A verification development for `helmdeps.py`, a recursive Helm-chart
dependency-tree resolver.  The Python source is shallowly embedded:

* POSIX path handling (`os.path.abspath`, `os.path.join`,
  `os.path.commonprefix`) is modelled over component lists and
  character lists;
* the tar-extraction guard `safe_extract` (with its inner
  `is_within_directory` check) is modelled as a function from a
  destination directory and a list of tar member names to either a
  path-traversal error or the list of written paths;
* Python dictionaries (insertion-ordered, string-keyed) are modelled by
  the mutually inductive `Val`/`Dict` types, with `dget`/`dset`
  implementing item lookup and item assignment;
* `parse_chart` is modelled by `parseChartM` over an inductive model of
  the inspected directory tree (`ChartTree`), returning either the
  exception message or the emitted warnings together with the
  resulting chart-metadata dictionary;
* the clustered graph builder `build_combined_graph`/`build_cluster` is
  modelled by `clusterNodes`, which records the pydot node/cluster
  identifier assigned to every visited tree position.

Exception messages are embedded as short fixed strings (the Python
messages interpolate filesystem paths, which the model does not carry).
-/

namespace HelmDeps

/-! ## Path model

`splitPath` is `str.split("/")`; `normAbs` is the component-level part
of `os.path.normpath` on an absolute path (drops empty and `"."`
components, lets `".."` pop the previous component, and drops `".."`
at the root — symlinks and the double-slash root special case are not
modelled); `renderAbs` renders components back to an absolute path
string.  `os.path.abspath(os.path.join(path, name))` for an absolute
`path` is `resolveMember`. -/

def splitComps : List Char → List Char → List String
  | [], cur => [String.mk cur.reverse]
  | c :: rest, cur =>
    if c = '/' then String.mk cur.reverse :: splitComps rest []
    else splitComps rest (c :: cur)

def splitPath (s : String) : List String :=
  splitComps s.data []

def normStep (acc : List String) (c : String) : List String :=
  if c = "" ∨ c = "." then acc
  else if c = ".." then acc.tail
  else c :: acc

def normAbs (parts : List String) : List String :=
  (parts.foldl normStep []).reverse

def joinParts : List String → String
  | [] => ""
  | [p] => p
  | p :: q :: rest => p ++ "/" ++ joinParts (q :: rest)

def renderAbs (parts : List String) : String :=
  "/" ++ joinParts parts

def isAbsName (m : String) : Bool :=
  match m.data with
  | '/' :: _ => true
  | _ => false

/-- `os.path.abspath(os.path.join(dest, m))` as a component list, for an
absolute destination `dest` given as components: an absolute member name
replaces the destination (as `os.path.join` does), a relative one is
appended, and the result is normalised. -/
def resolveMember (dest : List String) (m : String) : List String :=
  if isAbsName m then normAbs (splitPath m) else normAbs (dest ++ splitPath m)

/-- `os.path.commonprefix` on two strings: the longest common prefix,
computed character-wise. -/
def commonPrefixChars : List Char → List Char → List Char
  | a :: as, b :: bs => if a = b then a :: commonPrefixChars as bs else []
  | _, _ => []

/-- Boolean list-prefix test (used to state what "inside the destination
directory" really means, namely component-wise path containment). -/
def listPref {α : Type} [DecidableEq α] : List α → List α → Bool
  | [], _ => true
  | _ :: _, [] => false
  | a :: as, b :: bs => if a = b then listPref as bs else false

/-- `is_within_directory(directory, target)` from the source, for
`directory` the destination as components and `target` the resolved
member path: compares `os.path.commonprefix` of the two rendered
absolute paths with the rendered destination. -/
def is_within_directory (dest : List String) (member : String) : Bool :=
  let absDirectory := renderAbs (normAbs dest)
  let absTarget := renderAbs (resolveMember dest member)
  commonPrefixChars absDirectory.data absTarget.data == absDirectory.data

/-- `safe_extract(tar, path)` from the source: every member is checked
with `is_within_directory` before anything is extracted; if any member
fails, the function raises and writes nothing, otherwise
`tar.extractall` writes every member at its resolved path (the returned
list). -/
def safe_extract (dest : List String) (members : List String) :
    Except String (List (List String)) :=
  if members.all (fun m => is_within_directory dest m) then
    .ok (members.map (resolveMember dest))
  else
    .error "Attempted Path Traversal in Tar File"

def isErr {ε α : Type} : Except ε α → Bool
  | .error _ => true
  | .ok _ => false

/-! ## Python dictionaries

`parse_chart` builds and returns nested Python dictionaries whose
values are strings or further dictionaries.  `Dict` models an
insertion-ordered string-keyed dictionary; `dget`/`dset` model item
lookup and item assignment (assignment replaces in place, otherwise
appends at the end, as CPython dicts do). -/

mutual
inductive Val where
  | str : String → Val
  | obj : Dict → Val
deriving DecidableEq
inductive Dict where
  | nil : Dict
  | cons : String → Val → Dict → Dict
deriving DecidableEq
end

def dget : Dict → String → Option Val
  | .nil, _ => none
  | .cons k v rest, q => if k = q then some v else dget rest q

/-- `k in d`. -/
def dmem (d : Dict) (k : String) : Bool :=
  (dget d k).isSome

def dset : Dict → String → Val → Dict
  | .nil, k, v => .cons k v .nil
  | .cons k' v' rest, k, v =>
    if k' = k then .cons k' v rest else .cons k' v' (dset rest k v)

def dkeys : Dict → List String
  | .nil => []
  | .cons k _ rest => k :: dkeys rest

/-- `not d` truthiness test of a dictionary. -/
def disEmpty : Dict → Bool
  | .nil => true
  | .cons _ _ _ => false

/-- Item lookup on a value known to be a dictionary (every dependency
entry built by `parse_chart` is one; on a string value the source would
raise, which no claim exercises). -/
def vget : Val → String → Option Val
  | .str _, _ => none
  | .obj d, k => dget d k

/-- Item assignment on a value known to be a dictionary. -/
def vset : Val → String → Val → Val
  | .str s, _, _ => .str s
  | .obj d, k, v => .obj (dset d k v)

/-! ## Manifest model and `parse_chart`

A parsed manifest (`Chart.yaml`) carries `name`, `version` and the
declared dependency list; each declared dependency carries `name`,
`version`, `repository` and an optional `condition` (read with
`.get("condition", "")`).  The inspected storage is modelled by
`ChartTree`: the manifest state plus the optional `charts` subfolder,
whose entries are subdirectories (with their own tree), `.tgz` archives
(carrying the scratch directory path the extraction happens to use, the
tar member names checked by `safe_extract`, and the extracted top-level
entries), or other files. -/

structure DeclaredDep where
  name : String
  version : String
  repository : String
  condition : Option String
deriving DecidableEq

inductive ChartFile where
  | missing : ChartFile
  | malformed : ChartFile
  | parsed : String → String → List DeclaredDep → ChartFile
deriving DecidableEq

mutual
inductive ChartTree where
  | mk : ChartFile → ChartsDir → ChartTree
inductive ChartsDir where
  | absent : ChartsDir
  | present : EntryList → ChartsDir
inductive EntryList where
  | nil : EntryList
  | cons : Entry → EntryList → EntryList
inductive Entry where
  | dir : String → ChartTree → Entry
  | tgz : String → List String → List String → TopList → Entry
  | file : String → Entry
inductive TopList where
  | nil : TopList
  | cons : String → ChartTree → TopList → TopList
end

/-- `os.path.splitext(name)[1]`: the extension starts at the last dot,
except that a basename consisting only of leading dots before it has no
extension. -/
def extFromRev : List Char → List Char → Option (List Char)
  | [], _ => none
  | c :: rest, acc =>
    if c = '.' then
      if rest.any (fun c' => c' ≠ '.') then some ('.' :: acc) else none
    else extFromRev rest (c :: acc)

def splitextExt (s : String) : String :=
  match extFromRev s.data.reverse [] with
  | some e => String.mk e
  | none => ""

/-- The placeholder dictionary built for one declared dependency. -/
def placeholderVal (d : DeclaredDep) : Val :=
  .obj (.cons "name" (.str d.name)
    (.cons "version" (.str d.version)
      (.cons "repository" (.str d.repository)
        (.cons "condition" (.str (d.condition.getD "")) .nil))))

/-- The `dependencies` dictionary comprehension: one placeholder per
declared dependency, keyed by its name. -/
def buildDeps (ds : List DeclaredDep) : Dict :=
  ds.foldl (fun acc d => dset acc d.name (placeholderVal d)) .nil

/-- The resolved chart metadata: `name`, `version` and the
`dependencies` dictionary. -/
structure Meta where
  name : String
  version : String
  deps : Dict
deriving DecidableEq

/-- The chart-metadata dictionary itself (also the structure
`json.dumps` serialises for the JSON output). -/
def metaVal (m : Meta) : Val :=
  .obj (.cons "name" (.str m.name)
    (.cons "version" (.str m.version)
      (.cons "dependencies" (.obj m.deps) .nil)))

def warnMissingSubchartFolder (name : String) : String :=
  "Missing subchart folder for the " ++ name ++ " chart"

def warnUnresolvedDep (name : String) : String :=
  "Unable to locate Chart.yaml for dependency " ++ name

/-- Propagates an extraction failure: the body of the archive branch
runs only when `safe_extract` did not raise.  (Both arguments are pure
`Except` values, so evaluating the continuation first is
unobservable.) -/
def extractGate {α : Type} (x : Except String (List (List String)))
    (k : Except String α) : Except String α :=
  match x with
  | .error e => .error e
  | .ok _ => k

/-- Shapes a sub-resolution result for the entry loop: the recursion's
warnings, its discovered chart name and its dependencies dictionary. -/
def subOk (x : Except String (List String × Meta)) :
    Except String (Option (List String × String × Dict)) :=
  match x with
  | .error e => .error e
  | .ok (ws, m) => .ok (some (ws, m.name, m.deps))

/-- Line 82 of the source: store the sub-resolution's `dependencies`
under the declared placeholder keyed by the sub-resolution's discovered
name; a discovered name that is not a declared key raises `KeyError`. -/
def mergeSub (acc : Dict) (subName : String) (subDeps : Dict) :
    Except String Dict :=
  match dget acc subName with
  | none => .error ("KeyError: " ++ subName)
  | some v => .ok (dset acc subName (vset v "dependencies" (.obj subDeps)))

/-- The warning loop after entry processing: one warning per declared
dependency that never received a `dependencies` key. -/
def unresolvedWarnings : Dict → List String
  | .nil => []
  | .cons k v rest =>
    match vget v "dependencies" with
    | some _ => unresolvedWarnings rest
    | none => warnUnresolvedDep k :: unresolvedWarnings rest

mutual
/-- `parse_chart(chart_folder)`: either the raised exception message or
the warnings logged (in order) together with the resulting metadata. -/
def parseChartM : ChartTree → Except String (List String × Meta)
  | .mk file cdir =>
    match file with
    | .missing => .error "Chart.yaml could not be found"
    | .malformed => .error "Failed to parse Chart.yaml"
    | .parsed name version declared =>
      let deps0 := buildDeps declared
      if disEmpty deps0 then .ok ([], ⟨name, version, deps0⟩)
      else
        match cdir with
        | .absent => .ok ([warnMissingSubchartFolder name], ⟨name, version, deps0⟩)
        | .present entries => do
          let (ws, deps1) ← loopEntries entries deps0
          .ok (ws ++ unresolvedWarnings deps1, ⟨name, version, deps1⟩)

/-- The `for file_name in os.listdir(dependencies_folder)` loop. -/
def loopEntries : EntryList → Dict → Except String (List String × Dict)
  | .nil, acc => .ok ([], acc)
  | .cons e rest, acc => do
    match ← stepEntry acc e with
    | none => loopEntries rest acc
    | some (ws, subName, subDeps) => do
      let acc' ← mergeSub acc subName subDeps
      let (ws', acc'') ← loopEntries rest acc'
      .ok (ws ++ ws', acc'')

/-- One loop iteration up to (not including) the merge: `none` means the
entry was skipped (`continue`), otherwise the sub-resolution's warnings,
discovered name and dependencies dictionary are returned.  A directory
is recursed into only when its name is a key of the dependencies
dictionary (a non-matching directory named like an archive makes
`tarfile.open` raise `IsADirectoryError`); a `.tgz` archive is
safe-extracted and its first top-level entry recursed into
unconditionally (`IndexError` if the extracted root is empty); a
non-archive regular file with a `.tgz` name makes `tarfile.open` raise
its read error; anything else is skipped. -/
def stepEntry (acc : Dict) : Entry → Except String (Option (List String × String × Dict))
  | .dir nm sub =>
    if dmem acc nm then subOk (parseChartM sub)
    else if splitextExt nm == ".tgz" then .error "IsADirectoryError"
    else .ok none
  | .tgz nm tmpDir members .nil =>
    if splitextExt nm == ".tgz" then
      extractGate (safe_extract tmpDir members) (.error "IndexError")
    else .ok none
  | .tgz nm tmpDir members (.cons _ sub _) =>
    if splitextExt nm == ".tgz" then
      extractGate (safe_extract tmpDir members) (subOk (parseChartM sub))
    else .ok none
  | .file nm =>
    if splitextExt nm == ".tgz" then .error "ReadError"
    else .ok none
end

/-- `parse_chart` as the caller sees it for serialization: the final
chart-metadata document. -/
def parseChart (t : ChartTree) : Except String Val :=
  match parseChartM t with
  | .error e => .error e
  | .ok (_, m) => .ok (metaVal m)

def EntryList.toL : EntryList → List Entry
  | .nil => []
  | .cons e rest => e :: rest.toL

def entriesOf : ChartsDir → List Entry
  | .absent => []
  | .present es => es.toL

/-! ## Claims C3, C4, C7, C10 -/

/-- The simplest accepted input: a chart with no declared dependencies. -/
def leafChart (name version : String) : ChartTree :=
  .mk (.parsed name version []) .absent

/-- The C7 example: `lib@2.0.0` with no further dependencies, vendored
as the directory `charts/lib` of root `app@1.0.0`, which declares it
with condition `enabled`. -/
def app7Tree : ChartTree :=
  .mk (.parsed "app" "1.0.0"
        [⟨"lib", "2.0.0", "https://example.com/charts", some "enabled"⟩])
    (.present (.cons (.dir "lib" (leafChart "lib" "2.0.0")) .nil))

/-- The document the spec's example expects for `app7Tree`. -/
def doc7 : Val :=
  .obj (.cons "name" (.str "app")
    (.cons "version" (.str "1.0.0")
      (.cons "dependencies" (.obj (.cons "lib"
        (.obj (.cons "name" (.str "lib")
          (.cons "version" (.str "2.0.0")
            (.cons "repository" (.str "https://example.com/charts")
              (.cons "condition" (.str "enabled")
                (.cons "dependencies" (.obj .nil) .nil))))))
        .nil)) .nil)))

/-- The C10 inputs: the root declares only `lib`, while the `charts`
folder holds a chart named `evil` — once as a `.tgz` archive, once as a
plain directory. -/
def evilChart : ChartTree := leafChart "evil" "1.0"

def app10Tgz : ChartTree :=
  .mk (.parsed "app" "1.0.0" [⟨"lib", "2.0.0", "repo", none⟩])
    (.present (.cons
      (.tgz "evil-1.0.tgz" ["tmp", "scratch"] [] (.cons "evil" evilChart .nil))
      .nil))

def app10Dir : ChartTree :=
  .mk (.parsed "app" "1.0.0" [⟨"lib", "2.0.0", "repo", none⟩])
    (.present (.cons (.dir "evil" evilChart) .nil))

/-- The inner dictionary of the `lib@2.0.0` placeholder, for the C8
witness. -/
def libPhDict : Dict :=
  .cons "name" (.str "lib")
    (.cons "version" (.str "2.0.0")
      (.cons "repository" (.str "repo")
        (.cons "condition" (.str "enabled") .nil)))

/-! ## Claim C6: archive and directory storage are interchangeable -/

def EntryList.appendEL : EntryList → EntryList → EntryList
  | .nil, ys => ys
  | .cons e xs, ys => .cons e (appendEL xs ys)

/-! ## Claim C2: which entries of `dependencies` become resolved -/

/-- The ways one `charts` entry can produce a sub-resolution discovered
under name `k`, relative to the declared key list `ks`: a directory
whose name is a declared key and whose tree resolves to a chart named
`k`, or a `.tgz` archive that extracts safely and whose first top-level
entry resolves to a chart named `k`. -/
def YieldsK (ks : List String) (e : Entry) (k : String) : Prop :=
  (∃ nm sub ws m, e = .dir nm sub ∧ nm ∈ ks
      ∧ parseChartM sub = .ok (ws, m) ∧ m.name = k)
  ∨ (∃ nm tmp mem tn sub tl ws m,
      e = .tgz nm tmp mem (.cons tn sub tl) ∧ splitextExt nm = ".tgz"
      ∧ isErr (safe_extract tmp mem) = false
      ∧ parseChartM sub = .ok (ws, m) ∧ m.name = k)

/-! ## Claim C9: the clustered graph builder's identifiers

`build_combined_graph`/`build_cluster` assigns every visited tree node
(cluster or leaf) the pydot identifier
`f"{parent_node}__{name}@{version}"`, where the root's absent parent is
rendered as the string `None` (both branches of the source's
`if parent_node:` build the same string).  `clusterNodes` records, for
every tree position reached (encoded as the list of child indices from
the root), the identifier assigned there. -/

def asObj : Val → Option Dict
  | .str _ => none
  | .obj d => some d

/-- `f"{metadata['name']}@{metadata['version']}"` when both fields are
strings. -/
def labelOf (v : Val) : Option String :=
  match vget v "name", vget v "version" with
  | some (.str n), some (.str ver) => some (n ++ "@" ++ ver)
  | _, _ => none

mutual
/-- All identifiers assigned inside the cluster rooted at `v`, keyed by
tree position.  A missing `name`/`version` (or a non-dictionary node)
is the source's lookup failure; a non-dictionary `dependencies` value
is its failure to iterate `.values()`. -/
def clusterNodes (v : Val) (parent : String) :
    Except String (List (List Nat × String)) :=
  match v with
  | .str _ => .error "KeyError"
  | .obj d0 =>
    match labelOf (.obj d0) with
    | none => .error "KeyError"
    | some lab =>
      match clusterFind d0 (parent ++ "__" ++ lab) with
      | .error e => .error e
      | .ok children => .ok (([], parent ++ "__" ++ lab) :: children)

/-- Walks the node's own dictionary for its `dependencies` entry
(first-match, as dictionary item lookup is): absent means no children
(`.get("dependencies", {})`). -/
def clusterFind (d : Dict) (nodeName : String) :
    Except String (List (List Nat × String)) :=
  match d with
  | .nil => .ok []
  | .cons k v rest =>
    cond (k == "dependencies")
      (match v with
       | .str _ => .error "AttributeError"
       | .obj dd => clusterChildren dd nodeName 0)
      (clusterFind rest nodeName)

def clusterChildren (d : Dict) (nodeName : String) (i : Nat) :
    Except String (List (List Nat × String)) :=
  match d with
  | .nil => .ok []
  | .cons _ v rest =>
    match clusterNodes v nodeName with
    | .error e => .error e
    | .ok l =>
      match clusterChildren rest nodeName (i + 1) with
      | .error e => .error e
      | .ok l2 => .ok (l.map (fun pi => (i :: pi.1, pi.2)) ++ l2)
end

/-- The C9 counterexample tree: root `x@1` with two children, one named
`a` (version `1`, itself with one child `b@2`) and one whose name is
the crafted string `a@1__b` (version `2`). -/
def cex9Tree : Val :=
  .obj (.cons "name" (.str "x")
    (.cons "version" (.str "1")
      (.cons "dependencies" (.obj
        (.cons "a" (.obj (.cons "name" (.str "a")
          (.cons "version" (.str "1")
            (.cons "dependencies" (.obj
              (.cons "b" (.obj (.cons "name" (.str "b")
                (.cons "version" (.str "2")
                  (.cons "dependencies" (.obj .nil) .nil)))) .nil)) .nil))))
        (.cons "c" (.obj (.cons "name" (.str "a@1__b")
          (.cons "version" (.str "2")
            (.cons "dependencies" (.obj .nil) .nil)))) .nil))) .nil)))

/-! ### The amended identifier scheme

Machinery for the amended C9: `labelsAt` reads off the `name@version`
labels along a tree position, `joinU` is the `__`-separated join the
builder computes, and `WfT` captures the inputs for which the scheme is
injective: every label free of underscores and sibling labels pairwise
distinct. -/

/-- No underscore occurs in the string. -/
def uFree (s : String) : Bool :=
  s.data.all (fun c => c != '_')

def joinU : List String → String
  | [] => ""
  | [x] => x
  | x :: y :: r => x ++ "__" ++ joinU (y :: r)

def dvalues : Dict → List Val
  | .nil => []
  | .cons _ v rest => v :: dvalues rest

/-- The node's `dependencies` dictionary: absent means empty, a string
value is malformed. -/
def depsDictOf (d : Dict) : Option Dict :=
  match dget d "dependencies" with
  | none => some .nil
  | some (.str _) => none
  | some (.obj dd) => some dd

def childValsD (d : Dict) : List Val :=
  match dget d "dependencies" with
  | some (.obj dd) => dvalues dd
  | _ => []

def childVals : Val → List Val
  | .str _ => []
  | .obj d => childValsD d

/-- The labels along a tree position: the node's own label followed by
the labels along the remaining position inside the addressed child. -/
def labelsAt (v : Val) : List Nat → Option (List String)
  | [] => (labelOf v).map (fun lab => [lab])
  | j :: p =>
    match labelOf v, (childVals v)[j]? with
    | some lab, some c =>
      match labelsAt c p with
      | some r => some (lab :: r)
      | none => none
    | _, _ => none

/-- Well-formed display trees: every node is a dictionary with
string-valued `name`/`version` whose `name@version` label contains no
underscore, the `dependencies` entry (if any) is a dictionary, sibling
labels are pairwise distinct, and all children are well-formed. -/
inductive WfT : Val → Prop where
  | mk : ∀ (d : Dict) (lab : String) (dd : Dict),
      labelOf (.obj d) = some lab →
      uFree lab = true →
      depsDictOf d = some dd →
      List.Pairwise (fun a b => a ≠ b) ((dvalues dd).map labelOf) →
      (∀ v' ∈ dvalues dd, WfT v') →
      WfT (.obj d)

/-- A well-formed concrete display tree: `lib@2.0.0`, leaf. -/
def wtree9LibD : Dict :=
  .cons "name" (.str "lib")
    (.cons "version" (.str "2.0.0")
      (.cons "dependencies" (.obj .nil) .nil))

/-- A well-formed concrete display tree: `app@1.0.0` with the single
dependency `lib@2.0.0`. -/
def wtree9D : Dict :=
  .cons "name" (.str "app")
    (.cons "version" (.str "1.0.0")
      (.cons "dependencies" (.obj (.cons "lib" (.obj wtree9LibD) .nil)) .nil))

def wtree9 : Val := .obj wtree9D

/-! ## Path lemmas for the traversal guard -/

theorem listPref_iff_append {α : Type} [DecidableEq α] :
    ∀ (a b : List α), listPref a b = true ↔ ∃ c, b = a ++ c := by
  intro a
  induction a with
  | nil => intro b; simp [listPref]
  | cons x xs ih =>
    intro b
    cases b with
    | nil =>
      constructor
      · intro h; exact absurd h (by simp [listPref])
      · rintro ⟨c, hc⟩
        exact absurd hc (by simp)
    | cons y ys =>
      simp only [listPref]
      by_cases hxy : x = y
      · subst hxy
        rw [if_pos rfl, ih ys]
        constructor
        · rintro ⟨c, rfl⟩
          exact ⟨c, by simp⟩
        · rintro ⟨c, hc⟩
          simp only [List.cons_append, List.cons.injEq] at hc
          exact ⟨c, hc.2⟩
      · rw [if_neg hxy]
        constructor
        · intro h; exact absurd h (by simp)
        · rintro ⟨c, hc⟩
          simp only [List.cons_append, List.cons.injEq] at hc
          exact absurd hc.1.symm hxy

theorem listPref_refl {α : Type} [DecidableEq α] (a : List α) :
    listPref a a = true :=
  (listPref_iff_append a a).mpr ⟨[], by simp⟩

theorem strExt {a b : String} (h : a.data = b.data) : a = b := by
  cases a
  cases b
  exact congrArg String.mk h

theorem commonPrefixChars_of_listPref :
    ∀ (a b : List Char), listPref a b = true → commonPrefixChars a b = a := by
  intro a
  induction a with
  | nil => intro b _; cases b <;> rfl
  | cons x xs ih =>
    intro b h
    cases b with
    | nil => simp [listPref] at h
    | cons y ys =>
      simp only [listPref] at h
      by_cases hxy : x = y
      · subst hxy
        simp only [if_pos rfl] at h
        simp [commonPrefixChars, ih ys h]
      · simp [if_neg hxy] at h

theorem joinParts_append :
    ∀ (xs ys : List String), xs ≠ [] → ys ≠ [] →
      joinParts (xs ++ ys) = joinParts xs ++ "/" ++ joinParts ys := by
  intro xs
  induction xs with
  | nil => intro ys h _; exact absurd rfl h
  | cons x xs ih =>
    intro ys _ hys
    cases xs with
    | nil =>
      cases ys with
      | nil => exact absurd rfl hys
      | cons y ys' => simp [joinParts]
    | cons x' xs' =>
      have h2 := ih ys (by simp) hys
      have lhs : joinParts ((x :: x' :: xs') ++ ys)
          = x ++ "/" ++ joinParts ((x' :: xs') ++ ys) := rfl
      rw [lhs, h2]
      apply strExt
      simp [joinParts, String.data_append, List.append_assoc]

theorem listPref_append_self {α : Type} [DecidableEq α] (a b : List α) :
    listPref a (a ++ b) = true :=
  (listPref_iff_append a (a ++ b)).mpr ⟨b, rfl⟩

/-- If a resolved member path really is inside the destination
(component-wise), the string-level `commonprefix` test accepts it. -/
theorem is_within_of_listPref (dest : List String) (m : String)
    (h : listPref (normAbs dest) (resolveMember dest m) = true) :
    is_within_directory dest m = true := by
  obtain ⟨c, hc⟩ := (listPref_iff_append _ _).mp h
  unfold is_within_directory
  rw [hc]
  suffices hp : listPref (renderAbs (normAbs dest)).data
      (renderAbs (normAbs dest ++ c)).data = true by
    simp only [commonPrefixChars_of_listPref _ _ hp, beq_self_eq_true]
  cases c with
  | nil =>
    rw [List.append_nil]
    exact listPref_refl _
  | cons c0 cs =>
    cases hnd : normAbs dest with
    | nil =>
      apply (listPref_iff_append _ _).mpr
      refine ⟨(joinParts (c0 :: cs)).data, ?_⟩
      simp [renderAbs, joinParts, String.data_append]
    | cons d0 ds =>
      simp only [renderAbs]
      rw [joinParts_append (d0 :: ds) (c0 :: cs) (by simp) (by simp)]
      apply (listPref_iff_append _ _).mpr
      refine ⟨("/" ++ joinParts (c0 :: cs)).data, ?_⟩
      simp [String.data_append, List.append_assoc]

/-- C1, counterexample.  With destination `/tmp/x`, the tar member
`../x2/evil` resolves to `/tmp/x2/evil` — outside the destination
directory — yet `safe_extract` accepts it and extracts (the
character-wise `os.path.commonprefix` of `/tmp/x` and `/tmp/x2/evil` is
`/tmp/x` itself), so the claim "any entry resolving outside fails the
extraction" is false. -/
theorem claim1_counterexample :
    listPref (normAbs ["tmp", "x"])
        (resolveMember ["tmp", "x"] "../x2/evil") = false
    ∧ safe_extract ["tmp", "x"] ["../x2/evil"]
        = .ok [["tmp", "x2", "evil"]] := by
  exact ⟨by decide, by rfl⟩

/-- C1 (amended): extraction fails with the path-traversal error iff some
member fails the string-level `commonprefix` containment test (not iff
some member resolves outside the destination: a path that escapes into a
sibling whose name extends the destination's, such as `/tmp/x2` beside
`/tmp/x`, passes the test).  The failure is all-or-nothing: on error no
entry is written.  Conversely, every member that fails the test does
resolve outside the destination (component-wise). -/
theorem claim1_amended (dest : List String) (members : List String) :
    (isErr (safe_extract dest members) = true
      ↔ ∃ m ∈ members, is_within_directory dest m = false)
    ∧ (isErr (safe_extract dest members) = true →
        safe_extract dest members = .error "Attempted Path Traversal in Tar File")
    ∧ (∀ m ∈ members, is_within_directory dest m = false →
        listPref (normAbs dest) (resolveMember dest m) = false) := by
  refine ⟨?_, ?_, ?_⟩
  · unfold safe_extract
    by_cases hall : members.all (fun m => is_within_directory dest m) = true
    · rw [if_pos hall]
      constructor
      · intro h; exact absurd h (by simp [isErr])
      · rintro ⟨m, hm, hfalse⟩
        rw [List.all_eq_true] at hall
        exact absurd (hall m hm) (by simp [hfalse])
    · rw [if_neg hall]
      constructor
      · intro _
        rw [List.all_eq_true] at hall
        push_neg at hall
        obtain ⟨m, hm, hmf⟩ := hall
        exact ⟨m, hm, by simpa using hmf⟩
      · intro _; simp [isErr]
  · unfold safe_extract
    by_cases hall : members.all (fun m => is_within_directory dest m) = true
    · rw [if_pos hall]; intro h; exact absurd h (by simp [isErr])
    · rw [if_neg hall]; intro _; rfl
  · intro m _ hfalse
    cases hlp : listPref (normAbs dest) (resolveMember dest m) with
    | false => rfl
    | true => exact absurd (is_within_of_listPref dest m hlp) (by simp [hfalse])

/-- C1, witness for the amended theorem: `../../etc/passwd` under
destination `/tmp/x` both fails the `commonprefix` test (so extraction
errors) and resolves outside the destination. -/
theorem claim1_amended_witness :
    isErr (safe_extract ["tmp", "x"] ["../../etc/passwd"]) = true
    ∧ safe_extract ["tmp", "x"] ["../../etc/passwd"]
        = .error "Attempted Path Traversal in Tar File"
    ∧ listPref (normAbs ["tmp", "x"])
        (resolveMember ["tmp", "x"] "../../etc/passwd") = false := by
  have h := claim1_amended ["tmp", "x"] ["../../etc/passwd"]
  have herr : isErr (safe_extract ["tmp", "x"] ["../../etc/passwd"]) = true :=
    h.1.mpr ⟨"../../etc/passwd", by simp, by decide⟩
  exact ⟨herr, h.2.1 herr,
    h.2.2 "../../etc/passwd" (by simp) (by decide)⟩

/-! ## Dictionary lemmas -/

theorem dget_dset_self : ∀ (d : Dict) (k : String) (v : Val),
    dget (dset d k v) k = some v
  | .nil, k, v => by simp [dset, dget]
  | .cons k' v' rest, k, v => by
    by_cases h : k' = k
    · simp [dset, if_pos h, dget, h]
    · simp [dset, if_neg h, dget, if_neg h, dget_dset_self rest k v]

theorem dget_dset_ne : ∀ (d : Dict) (k q : String) (v : Val), k ≠ q →
    dget (dset d k v) q = dget d q
  | .nil, k, q, v, h => by simp [dset, dget, if_neg h]
  | .cons k' v' rest, k, q, v, h => by
    by_cases h' : k' = k
    · subst h'
      simp [dset, dget, if_neg h]
    · simp [dset, if_neg h', dget, dget_dset_ne rest k q v h]

theorem dmem_iff_mem_dkeys : ∀ (d : Dict) (k : String),
    dmem d k = true ↔ k ∈ dkeys d
  | .nil, k => by simp [dmem, dget, dkeys]
  | .cons k' v' rest, k => by
    by_cases h : k' = k
    · subst h
      simp [dmem, dget, dkeys]
    · simp only [dmem, dget, if_neg h, dkeys, List.mem_cons]
      rw [← dmem, dmem_iff_mem_dkeys rest k]
      constructor
      · exact fun hm => Or.inr hm
      · rintro (rfl | hm)
        · exact absurd rfl h
        · exact hm

theorem dmem_eq_of_dkeys_eq {a b : Dict} (h : dkeys a = dkeys b) (k : String) :
    dmem a k = dmem b k := by
  cases ha : dmem a k with
  | true =>
    have := (dmem_iff_mem_dkeys a k).mp ha
    rw [h] at this
    exact ((dmem_iff_mem_dkeys b k).mpr this).symm
  | false =>
    cases hb : dmem b k with
    | false => rfl
    | true =>
      have := (dmem_iff_mem_dkeys b k).mp hb
      rw [← h] at this
      rw [(dmem_iff_mem_dkeys a k).mpr this] at ha
      exact absurd ha (by simp)

theorem dkeys_dset_of_dmem : ∀ (d : Dict) (k : String) (v : Val),
    dmem d k = true → dkeys (dset d k v) = dkeys d
  | .nil, k, v, h => by simp [dmem, dget] at h
  | .cons k' v' rest, k, v, h => by
    by_cases hk : k' = k
    · simp [dset, if_pos hk, dkeys]
    · simp only [dmem, dget, if_neg hk] at h
      simp [dset, if_neg hk, dkeys, dkeys_dset_of_dmem rest k v h]

theorem dmem_dset : ∀ (d : Dict) (k q : String) (v : Val),
    dmem (dset d k v) q = true ↔ k = q ∨ dmem d q = true := by
  intro d k q v
  by_cases h : k = q
  · subst h
    simp [dmem, dget_dset_self]
  · rw [dmem, dget_dset_ne d k q v h, ← dmem]
    simp [h]

theorem disEmpty_dset (d : Dict) (k : String) (v : Val) :
    disEmpty (dset d k v) = false := by
  cases d with
  | nil => rfl
  | cons k' v' rest =>
    by_cases h : k' = k
    · simp [dset, if_pos h, disEmpty]
    · simp [dset, if_neg h, disEmpty]

theorem mergeSub_ok_shape {acc : Dict} {n : String} {sd : Dict} {acc' : Dict}
    (h : mergeSub acc n sd = .ok acc') :
    ∃ v, dget acc n = some v
      ∧ acc' = dset acc n (vset v "dependencies" (.obj sd)) := by
  unfold mergeSub at h
  cases hg : dget acc n with
  | none => rw [hg] at h; exact absurd h (by simp)
  | some v =>
    rw [hg] at h
    exact ⟨v, rfl, by injection h with h'; exact h'.symm⟩

theorem mergeSub_keys {acc : Dict} {n : String} {sd : Dict} {acc' : Dict}
    (h : mergeSub acc n sd = .ok acc') : dkeys acc' = dkeys acc := by
  obtain ⟨v, hv, rfl⟩ := mergeSub_ok_shape h
  exact dkeys_dset_of_dmem acc n _ (by simp [dmem, hv])

/-! ## `buildDeps` lemmas -/

theorem disEmpty_foldl_build :
    ∀ (ds : List DeclaredDep) (acc : Dict),
      (ds ≠ [] ∨ disEmpty acc = false) →
      disEmpty (ds.foldl (fun a d => dset a d.name (placeholderVal d)) acc) = false := by
  intro ds
  induction ds with
  | nil =>
    intro acc h
    rcases h with h | h
    · exact absurd rfl h
    · simpa using h
  | cons d ds' ih =>
    intro acc _
    exact ih (dset acc d.name (placeholderVal d)) (Or.inr (disEmpty_dset _ _ _))

theorem disEmpty_buildDeps {ds : List DeclaredDep} (h : ds ≠ []) :
    disEmpty (buildDeps ds) = false :=
  disEmpty_foldl_build ds .nil (Or.inl h)

theorem dget_foldl_build :
    ∀ (ds : List DeclaredDep) (acc : Dict) (k : String) (v : Val),
      dget (ds.foldl (fun a d => dset a d.name (placeholderVal d)) acc) k = some v →
      dget acc k = some v ∨ ∃ d ∈ ds, d.name = k ∧ v = placeholderVal d := by
  intro ds
  induction ds with
  | nil => intro acc k v h; exact Or.inl h
  | cons d ds' ih =>
    intro acc k v h
    rcases ih (dset acc d.name (placeholderVal d)) k v h with h' | ⟨d', hd', hn, hv⟩
    · by_cases hk : d.name = k
      · subst hk
        rw [dget_dset_self] at h'
        exact Or.inr ⟨d, by simp, rfl, by injection h' with h''; exact h''.symm⟩
      · rw [dget_dset_ne _ _ _ _ hk] at h'
        exact Or.inl h'
    · exact Or.inr ⟨d', by simp [hd'], hn, hv⟩

theorem dget_buildDeps {ds : List DeclaredDep} {k : String} {v : Val}
    (h : dget (buildDeps ds) k = some v) :
    ∃ d ∈ ds, d.name = k ∧ v = placeholderVal d := by
  rcases dget_foldl_build ds .nil k v h with h' | h'
  · exact absurd h' (by simp [dget])
  · exact h'

theorem dmem_foldl_build :
    ∀ (ds : List DeclaredDep) (acc : Dict) (k : String),
      (dmem acc k = true ∨ ∃ d ∈ ds, d.name = k) →
      dmem (ds.foldl (fun a d => dset a d.name (placeholderVal d)) acc) k = true := by
  intro ds
  induction ds with
  | nil =>
    intro acc k h
    rcases h with h | ⟨d, hd, _⟩
    · exact h
    · simp at hd
  | cons d ds' ih =>
    intro acc k h
    apply ih
    rcases h with h | ⟨d', hd', hn⟩
    · exact Or.inl ((dmem_dset acc d.name k _).mpr (Or.inr h))
    · rcases List.mem_cons.mp hd' with rfl | hmem
      · exact Or.inl ((dmem_dset acc d'.name k _).mpr (Or.inl hn))
      · exact Or.inr ⟨d', hmem, hn⟩

theorem dmem_buildDeps {ds : List DeclaredDep} {d : DeclaredDep} (h : d ∈ ds) :
    dmem (buildDeps ds) d.name = true :=
  dmem_foldl_build ds .nil d.name (Or.inr ⟨d, h, rfl⟩)

theorem exists_declared_of_dmem_buildDeps {ds : List DeclaredDep} {k : String}
    (h : dmem (buildDeps ds) k = true) : ∃ d ∈ ds, d.name = k := by
  rw [dmem] at h
  cases hg : dget (buildDeps ds) k with
  | none => rw [hg] at h; exact absurd h (by simp)
  | some v =>
    obtain ⟨d, hd, hn, _⟩ := dget_buildDeps hg
    exact ⟨d, hd, hn⟩

theorem disEmpty_false_of_dmem {d : Dict} {k : String} (h : dmem d k = true) :
    disEmpty d = false := by
  cases d with
  | nil => simp [dmem, dget] at h
  | cons k' v' rest => rfl

theorem placeholderVal_fields (d : DeclaredDep) :
    vget (placeholderVal d) "name" = some (.str d.name)
    ∧ vget (placeholderVal d) "version" = some (.str d.version)
    ∧ vget (placeholderVal d) "repository" = some (.str d.repository)
    ∧ vget (placeholderVal d) "condition" = some (.str (d.condition.getD ""))
    ∧ vget (placeholderVal d) "dependencies" = none :=
  ⟨rfl, rfl, rfl, rfl, rfl⟩

/-- C3, counterexample.  For the accepted component `app@1.0.0` with no
dependencies, the returned root mapping has no `condition` key at all
(its keys are exactly `name`, `version`, `dependencies`), so the root
does not carry a condition field equal to the empty string. -/
theorem claim3_counterexample :
    parseChart (leafChart "app" "1.0.0") = .ok (metaVal ⟨"app", "1.0.0", .nil⟩)
    ∧ vget (metaVal ⟨"app", "1.0.0", .nil⟩) "condition" = none := by
  exact ⟨rfl, rfl⟩

/-- C3 (amended): the returned root document never carries a
`condition` field — its lookup yields nothing, and a defaulting read
(the convention under which the graph builders access conditions)
yields the empty string, so the root is unconditional by omission
rather than by an explicit empty-string field. -/
theorem claim3_amended (t : ChartTree) (v : Val)
    (h : parseChart t = .ok v) :
    vget v "condition" = none
    ∧ (vget v "condition").getD (.str "") = .str "" := by
  unfold parseChart at h
  cases hp : parseChartM t with
  | error e => rw [hp] at h; exact absurd h (by simp)
  | ok wm =>
    rw [hp] at h
    obtain ⟨ws, m⟩ := wm
    have hv : v = metaVal m := by injection h with h'; exact h'.symm
    subst hv
    exact ⟨rfl, rfl⟩

/-- C3, witness: the amended theorem applied to the concrete accepted
component `app@1.0.0`. -/
theorem claim3_amended_witness :
    vget (metaVal ⟨"app", "1.0.0", .nil⟩) "condition" = none
    ∧ (vget (metaVal ⟨"app", "1.0.0", .nil⟩) "condition").getD (.str "")
        = .str "" :=
  claim3_amended (leafChart "app" "1.0.0") (metaVal ⟨"app", "1.0.0", .nil⟩) rfl

/-- C4, confirmed.  A component whose manifest declares at least one
dependency but whose `charts` subfolder is absent resolves successfully,
emitting exactly the one missing-subchart-folder warning; every declared
dependency is present in the result keyed by its name, as a placeholder
carrying exactly the declared name, version, repository and (defaulted)
condition, with no nested `dependencies` key (unresolved). -/
theorem claim4_missing_folder (name version : String)
    (ds : List DeclaredDep) (h : ds ≠ []) :
    parseChartM (.mk (.parsed name version ds) .absent)
      = .ok ([warnMissingSubchartFolder name], ⟨name, version, buildDeps ds⟩)
    ∧ (∀ d ∈ ds, dmem (buildDeps ds) d.name = true)
    ∧ (∀ k v, dget (buildDeps ds) k = some v →
        ∃ d ∈ ds, d.name = k ∧ v = placeholderVal d
          ∧ vget v "name" = some (.str d.name)
          ∧ vget v "version" = some (.str d.version)
          ∧ vget v "repository" = some (.str d.repository)
          ∧ vget v "condition" = some (.str (d.condition.getD ""))
          ∧ vget v "dependencies" = none) := by
  refine ⟨?_, ?_, ?_⟩
  · simp [parseChartM, disEmpty_buildDeps h]
  · intro d hd
    exact dmem_buildDeps hd
  · intro k v hv
    obtain ⟨d, hd, hn, hph⟩ := dget_buildDeps hv
    subst hph
    obtain ⟨f1, f2, f3, f4, f5⟩ := placeholderVal_fields d
    exact ⟨d, hd, hn, rfl, f1, f2, f3, f4, f5⟩

/-- C4, witness: one declared dependency `lib`, `charts/` absent. -/
theorem claim4_missing_folder_witness :
    parseChartM (.mk (.parsed "app" "1.0.0"
        [⟨"lib", "2.0.0", "repo", some "enabled"⟩]) .absent)
      = .ok ([warnMissingSubchartFolder "app"],
          ⟨"app", "1.0.0",
            buildDeps [⟨"lib", "2.0.0", "repo", some "enabled"⟩]⟩)
    ∧ ∃ d ∈ [(⟨"lib", "2.0.0", "repo", some "enabled"⟩ : DeclaredDep)],
        d.name = "lib"
        ∧ placeholderVal ⟨"lib", "2.0.0", "repo", some "enabled"⟩
            = placeholderVal d
        ∧ vget (placeholderVal ⟨"lib", "2.0.0", "repo", some "enabled"⟩) "name"
            = some (.str d.name)
        ∧ vget (placeholderVal ⟨"lib", "2.0.0", "repo", some "enabled"⟩) "version"
            = some (.str d.version)
        ∧ vget (placeholderVal ⟨"lib", "2.0.0", "repo", some "enabled"⟩) "repository"
            = some (.str d.repository)
        ∧ vget (placeholderVal ⟨"lib", "2.0.0", "repo", some "enabled"⟩) "condition"
            = some (.str (d.condition.getD ""))
        ∧ vget (placeholderVal ⟨"lib", "2.0.0", "repo", some "enabled"⟩) "dependencies"
            = none := by
  have h := claim4_missing_folder "app" "1.0.0"
    [⟨"lib", "2.0.0", "repo", some "enabled"⟩] (by simp)
  exact ⟨h.1, h.2.2 "lib" (placeholderVal ⟨"lib", "2.0.0", "repo", some "enabled"⟩) (by rfl)⟩

/-- C7, confirmed.  Resolving the example input and serialising yields
exactly the expected document `{"name":"app","version":"1.0.0",
"dependencies":{"lib":{"name":"lib","version":"2.0.0","repository":...,
"condition":"enabled","dependencies":{}}}}` (keys in this order). -/
theorem claim7_example_document :
    parseChart app7Tree = .ok doc7 := by
  rfl

/-- C10, confirmed.  A `.tgz` archive is extracted and recursed
unconditionally, so an archive whose discovered chart name (`evil`) is
not a declared dependency makes the merge step fail with an unhandled
key-lookup error; the same chart vendored as a directory named `evil`
is merely skipped (its name matches no declared dependency) and
resolution succeeds with `lib` left unresolved. -/
theorem claim10_undeclared_archive :
    parseChartM app10Tgz = .error "KeyError: evil"
    ∧ parseChartM app10Dir
      = .ok ([warnUnresolvedDep "lib"],
          ⟨"app", "1.0.0", buildDeps [⟨"lib", "2.0.0", "repo", none⟩]⟩) := by
  exact ⟨rfl, rfl⟩

/-! ## Claim C8: the merge is a frame update -/

/-- C8, confirmed.  A successful merge of a sub-resolution into the
dependencies dictionary touches no key other than the discovered name;
at that key it stores exactly the old placeholder with its
`dependencies` slot assigned, so the placeholder's `name`, `version`,
`repository` and `condition` fields all read back unchanged (the
declared values, even when the discovered manifest's values differ). -/
theorem claim8_merge_frame (acc : Dict) (n : String) (sd : Dict) (acc' : Dict)
    (h : mergeSub acc n sd = .ok acc') :
    (∀ j, j ≠ n → dget acc' j = dget acc j)
    ∧ ∀ v, dget acc n = some (.obj v) →
        acc' = dset acc n (vset (.obj v) "dependencies" (.obj sd))
        ∧ vget (vset (.obj v) "dependencies" (.obj sd)) "name" = vget (.obj v) "name"
        ∧ vget (vset (.obj v) "dependencies" (.obj sd)) "version" = vget (.obj v) "version"
        ∧ vget (vset (.obj v) "dependencies" (.obj sd)) "repository" = vget (.obj v) "repository"
        ∧ vget (vset (.obj v) "dependencies" (.obj sd)) "condition" = vget (.obj v) "condition"
        ∧ vget (vset (.obj v) "dependencies" (.obj sd)) "dependencies" = some (.obj sd) := by
  obtain ⟨v0, hv0, rfl⟩ := mergeSub_ok_shape h
  constructor
  · intro j hj
    exact dget_dset_ne acc n j _ (fun he => hj he.symm)
  · intro v hv
    rw [hv0] at hv
    have hvv : v0 = .obj v := by injection hv
    subst hvv
    refine ⟨rfl, ?_, ?_, ?_, ?_, ?_⟩
    · exact dget_dset_ne v "dependencies" _ (.obj sd) (by decide)
    · exact dget_dset_ne v "dependencies" _ (.obj sd) (by decide)
    · exact dget_dset_ne v "dependencies" _ (.obj sd) (by decide)
    · exact dget_dset_ne v "dependencies" _ (.obj sd) (by decide)
    · exact dget_dset_self v "dependencies" (.obj sd)

/-- C8, witness: merging sub-dependencies discovered under the name
`lib` into a one-placeholder dictionary; the placeholder's `version`
field survives the merge. -/
theorem claim8_merge_frame_witness :
    (∀ j, j ≠ "lib" →
      dget (dset (.cons "lib" (.obj libPhDict) .nil)
          "lib" (vset (.obj libPhDict) "dependencies" (.obj .nil))) j
        = dget (.cons "lib" (.obj libPhDict) .nil) j)
    ∧ vget (vset (.obj libPhDict) "dependencies" (.obj .nil)) "version"
        = vget (.obj libPhDict) "version" := by
  have h := claim8_merge_frame
    (.cons "lib" (.obj libPhDict) .nil) "lib" .nil
    (dset (.cons "lib" (.obj libPhDict) .nil)
      "lib" (vset (.obj libPhDict) "dependencies" (.obj .nil)))
    (by rfl)
  exact ⟨h.1, (h.2 libPhDict rfl).2.2.1⟩

/-! ## Claim C5: fatal manifest failures propagate -/

theorem loopEntries_err : ∀ (es : EntryList) (acc : Dict) (e : Entry),
    e ∈ es.toL →
    (∀ acc₂, dkeys acc₂ = dkeys acc → isErr (stepEntry acc₂ e) = true) →
    isErr (loopEntries es acc) = true
  | .nil, _, e, he, _ => by simp [EntryList.toL] at he
  | .cons e0 rest, acc, e, he, hstep => by
    rw [EntryList.toL, List.mem_cons] at he
    rcases he with rfl | he
    · have h0 := hstep acc rfl
      cases hs : stepEntry acc e with
      | error msg => simp [loopEntries, hs, Bind.bind, Except.bind, isErr]
      | ok r => rw [hs] at h0; simp [isErr] at h0
    · cases hs : stepEntry acc e0 with
      | error msg => simp [loopEntries, hs, Bind.bind, Except.bind, isErr]
      | ok r =>
        cases r with
        | none =>
          have hrec := loopEntries_err rest acc e he hstep
          simpa [loopEntries, hs, Bind.bind, Except.bind] using hrec
        | some wsnd =>
          obtain ⟨ws0, n, sd⟩ := wsnd
          cases hm : mergeSub acc n sd with
          | error msg => simp [loopEntries, hs, hm, Bind.bind, Except.bind, isErr]
          | ok acc1 =>
            have hk := mergeSub_keys hm
            have hrec := loopEntries_err rest acc1 e he
              (fun acc₂ h₂ => hstep acc₂ (h₂.trans hk))
            cases hl : loopEntries rest acc1 with
            | error msg =>
              simp [loopEntries, hs, hm, hl, Bind.bind, Except.bind, isErr]
            | ok wd => rw [hl] at hrec; simp [isErr] at hrec

theorem parse_err_of_loop_err {name version : String}
    {declared : List DeclaredDep} {es : EntryList}
    (hne : disEmpty (buildDeps declared) = false)
    (h : isErr (loopEntries es (buildDeps declared)) = true) :
    isErr (parseChartM (.mk (.parsed name version declared) (.present es))) = true := by
  cases hl : loopEntries es (buildDeps declared) with
  | error msg =>
    simp [parseChartM, hne, hl, Bind.bind, Except.bind, isErr]
  | ok wd => rw [hl] at h; simp [isErr] at h

/-- C5, confirmed.  Every manifest failure reachable through the
recursion aborts the whole resolution with an error (no tree is
returned): a missing or malformed root manifest fails immediately; a
failing sub-resolution of a directory entry matching a declared
dependency fails the parent; a failing sub-resolution of the first
top-level entry of a (safely extracted) `.tgz` archive fails the
parent.  By induction along the recursion these one-step propagation
facts make any reachable manifest failure fatal for the whole tree. -/
theorem claim5_failure_propagation :
    (∀ cdir : ChartsDir,
      parseChartM (.mk .missing cdir) = .error "Chart.yaml could not be found"
      ∧ parseChartM (.mk .malformed cdir) = .error "Failed to parse Chart.yaml")
    ∧ (∀ (name version : String) (declared : List DeclaredDep) (es : EntryList)
        (nm : String) (sub : ChartTree),
        (Entry.dir nm sub) ∈ es.toL →
        dmem (buildDeps declared) nm = true →
        isErr (parseChartM sub) = true →
        isErr (parseChartM (.mk (.parsed name version declared) (.present es))) = true)
    ∧ (∀ (name version : String) (declared : List DeclaredDep) (es : EntryList)
        (nm : String) (tmp mem : List String) (tn : String) (sub : ChartTree)
        (tl : TopList),
        (Entry.tgz nm tmp mem (.cons tn sub tl)) ∈ es.toL →
        declared ≠ [] →
        splitextExt nm = ".tgz" →
        isErr (safe_extract tmp mem) = false →
        isErr (parseChartM sub) = true →
        isErr (parseChartM (.mk (.parsed name version declared) (.present es))) = true) := by
  refine ⟨fun cdir => ⟨rfl, rfl⟩, ?_, ?_⟩
  · intro name version declared es nm sub he hmem herr
    have hne : disEmpty (buildDeps declared) = false := disEmpty_false_of_dmem hmem
    apply parse_err_of_loop_err hne
    apply loopEntries_err es (buildDeps declared) _ he
    intro acc₂ hk₂
    have hmem₂ : dmem acc₂ nm = true := by
      rw [dmem_eq_of_dkeys_eq hk₂ nm]; exact hmem
    cases hp : parseChartM sub with
    | error msg => simp [stepEntry, hmem₂, hp, subOk, isErr]
    | ok wm => rw [hp] at herr; simp [isErr] at herr
  · intro name version declared es nm tmp mem tn sub tl he hds hext hse herr
    apply parse_err_of_loop_err (disEmpty_buildDeps hds)
    apply loopEntries_err es (buildDeps declared) _ he
    intro acc₂ _
    cases hx : safe_extract tmp mem with
    | error msg => rw [hx] at hse; simp [isErr] at hse
    | ok l =>
      cases hp : parseChartM sub with
      | error msg =>
        simp [stepEntry, hext, hx, hp, extractGate, subOk, isErr]
      | ok wm => rw [hp] at herr; simp [isErr] at herr

/-- C5, witness: a root `app` whose declared dependency `lib` is
present as `charts/lib` but has no `Chart.yaml`; the missing nested
manifest aborts the whole resolution. -/
theorem claim5_failure_propagation_witness :
    isErr (parseChartM (.mk (.parsed "app" "1.0.0" [⟨"lib", "2.0.0", "repo", none⟩])
      (.present (.cons (.dir "lib" (.mk .missing .absent)) .nil)))) = true := by
  apply claim5_failure_propagation.2.1 "app" "1.0.0"
    [⟨"lib", "2.0.0", "repo", none⟩]
    (.cons (.dir "lib" (.mk .missing .absent)) .nil)
    "lib" (.mk .missing .absent)
  · simp [EntryList.toL]
  · decide
  · rfl

theorem stepEntry_dir_eq_tgz (acc : Dict) (nm nm' : String)
    (tmp mem : List String) (tn : String) (sub : ChartTree) (tl : TopList)
    (hmem : dmem acc nm = true) (hext : splitextExt nm' = ".tgz")
    (hse : isErr (safe_extract tmp mem) = false) :
    stepEntry acc (.dir nm sub)
      = stepEntry acc (.tgz nm' tmp mem (.cons tn sub tl)) := by
  cases hx : safe_extract tmp mem with
  | error msg => rw [hx] at hse; simp [isErr] at hse
  | ok l => simp [stepEntry, hmem, hext, hx, extractGate]

theorem loop_dir_tgz_eq : ∀ (pre : EntryList) (acc : Dict) (nm nm' : String)
    (tmp mem : List String) (tn : String) (sub : ChartTree) (tl : TopList)
    (rest : EntryList),
    dmem acc nm = true → splitextExt nm' = ".tgz" →
    isErr (safe_extract tmp mem) = false →
    loopEntries (pre.appendEL (.cons (.dir nm sub) rest)) acc
      = loopEntries (pre.appendEL (.cons (.tgz nm' tmp mem (.cons tn sub tl)) rest)) acc
  | .nil, acc, nm, nm', tmp, mem, tn, sub, tl, rest, hmem, hext, hse => by
    simp only [EntryList.appendEL, loopEntries]
    rw [stepEntry_dir_eq_tgz acc nm nm' tmp mem tn sub tl hmem hext hse]
  | .cons e0 pre', acc, nm, nm', tmp, mem, tn, sub, tl, rest, hmem, hext, hse => by
    simp only [EntryList.appendEL, loopEntries]
    cases hs : stepEntry acc e0 with
    | error msg => simp [Bind.bind, Except.bind, hs]
    | ok r =>
      cases r with
      | none =>
        have hrec := loop_dir_tgz_eq pre' acc nm nm' tmp mem tn sub tl rest
          hmem hext hse
        simp [Bind.bind, Except.bind, hs, hrec]
      | some wsnd =>
        obtain ⟨ws0, n, sd⟩ := wsnd
        cases hm : mergeSub acc n sd with
        | error msg => simp [Bind.bind, Except.bind, hs, hm]
        | ok acc1 =>
          have hmem1 : dmem acc1 nm = true := by
            rw [dmem_eq_of_dkeys_eq (mergeSub_keys hm) nm]; exact hmem
          have hrec := loop_dir_tgz_eq pre' acc1 nm nm' tmp mem tn sub tl rest
            hmem1 hext hse
          simp [Bind.bind, Except.bind, hs, hm, hrec]

/-- C6, confirmed.  A dependency vendored as a `.tgz` archive whose
extraction succeeds and whose single top-level entry holds the same
tree as a plain `charts/<name>` directory produces the identical
sub-resolution result (first conjunct), and, in any position of the
`charts` listing of any declaring parent, the identical resolved tree
(second conjunct): archive versus directory storage is unobservable in
the output. -/
theorem claim6_repr_independence :
    (∀ (acc : Dict) (nm nm' : String) (tmp mem : List String) (tn : String)
        (sub : ChartTree) (tl : TopList),
      dmem acc nm = true → splitextExt nm' = ".tgz" →
      isErr (safe_extract tmp mem) = false →
      stepEntry acc (.dir nm sub)
        = stepEntry acc (.tgz nm' tmp mem (.cons tn sub tl)))
    ∧ (∀ (name version : String) (declared : List DeclaredDep)
        (pre rest : EntryList) (nm nm' : String) (tmp mem : List String)
        (tn : String) (sub : ChartTree) (tl : TopList),
      dmem (buildDeps declared) nm = true → splitextExt nm' = ".tgz" →
      isErr (safe_extract tmp mem) = false →
      parseChartM (.mk (.parsed name version declared)
          (.present (pre.appendEL (.cons (.dir nm sub) rest))))
        = parseChartM (.mk (.parsed name version declared)
            (.present (pre.appendEL (.cons (.tgz nm' tmp mem (.cons tn sub tl)) rest))))) := by
  constructor
  · exact stepEntry_dir_eq_tgz
  · intro name version declared pre rest nm nm' tmp mem tn sub tl hmem hext hse
    have hne : disEmpty (buildDeps declared) = false := disEmpty_false_of_dmem hmem
    have hloop := loop_dir_tgz_eq pre (buildDeps declared) nm nm' tmp mem tn sub tl
      rest hmem hext hse
    simp [parseChartM, hne, hloop]

/-- C6, witness: `lib@2.0.0` under root `app@1.0.0`, vendored once as
`charts/lib` and once as `charts/lib-2.0.0.tgz` (scratch directory
`/tmp/scratch`, no hostile members, single top-level entry `lib`):
identical resolution results. -/
theorem claim6_repr_independence_witness :
    parseChartM (.mk (.parsed "app" "1.0.0"
        [⟨"lib", "2.0.0", "https://example.com/charts", some "enabled"⟩])
      (.present (.cons (.dir "lib" (leafChart "lib" "2.0.0")) .nil)))
    = parseChartM (.mk (.parsed "app" "1.0.0"
        [⟨"lib", "2.0.0", "https://example.com/charts", some "enabled"⟩])
      (.present (.cons (.tgz "lib-2.0.0.tgz" ["tmp", "scratch"] []
          (.cons "lib" (leafChart "lib" "2.0.0") .nil)) .nil))) := by
  exact claim6_repr_independence.2 "app" "1.0.0"
    [⟨"lib", "2.0.0", "https://example.com/charts", some "enabled"⟩]
    .nil .nil "lib" "lib-2.0.0.tgz" ["tmp", "scratch"] [] "lib"
    (leafChart "lib" "2.0.0") .nil (by decide) (by rfl) (by rfl)

theorem stepEntry_ok_some {acc : Dict} {e : Entry} {ws : List String}
    {n : String} {sd : Dict}
    (h : stepEntry acc e = .ok (some (ws, n, sd))) :
    YieldsK (dkeys acc) e n := by
  cases e with
  | dir nm sub =>
    by_cases hmem : dmem acc nm = true
    · cases hp : parseChartM sub with
      | error msg => simp [stepEntry, hmem, hp, subOk] at h
      | ok wm =>
        obtain ⟨ws', m⟩ := wm
        simp only [stepEntry, hmem, if_true, hp, subOk,
          Except.ok.injEq, Option.some.injEq, Prod.mk.injEq] at h
        exact Or.inl ⟨nm, sub, ws', m,
          rfl, (dmem_iff_mem_dkeys acc nm).mp hmem, hp, h.2.1⟩
    · by_cases hext : (splitextExt nm == ".tgz") = true
      · simp [stepEntry, hmem, hext] at h
      · simp [stepEntry, hmem, hext] at h
  | tgz nm tmp mem tops =>
    cases tops with
    | nil =>
      by_cases hext : (splitextExt nm == ".tgz") = true
      · cases hx : safe_extract tmp mem with
        | error msg => simp [stepEntry, hext, hx, extractGate] at h
        | ok l => simp [stepEntry, hext, hx, extractGate] at h
      · simp [stepEntry, hext] at h
    | cons tn sub tl =>
      by_cases hext : (splitextExt nm == ".tgz") = true
      · cases hx : safe_extract tmp mem with
        | error msg => simp [stepEntry, hext, hx, extractGate] at h
        | ok l =>
          cases hp : parseChartM sub with
          | error msg => simp [stepEntry, hext, hx, hp, extractGate, subOk] at h
          | ok wm =>
            obtain ⟨ws', m⟩ := wm
            simp only [stepEntry, hext, if_true, hx, hp, extractGate, subOk,
              Except.ok.injEq, Option.some.injEq, Prod.mk.injEq] at h
            exact Or.inr ⟨nm, tmp, mem, tn, sub, tl, ws', m,
              rfl, by simpa using hext, by simp [hx, isErr], hp, h.2.1⟩
      · simp [stepEntry, hext] at h
  | file nm =>
    by_cases hext : (splitextExt nm == ".tgz") = true
    · simp [stepEntry, hext] at h
    · simp [stepEntry, hext] at h

theorem loopEntries_resolved : ∀ (es : EntryList) (acc : Dict)
    (ws : List String) (acc' : Dict),
    loopEntries es acc = .ok (ws, acc') →
    dkeys acc' = dkeys acc
    ∧ ∀ k v, dget acc' k = some v → (vget v "dependencies").isSome = true →
        (∃ v0, dget acc k = some v0 ∧ (vget v0 "dependencies").isSome = true)
        ∨ ∃ e ∈ es.toL, YieldsK (dkeys acc) e k
  | .nil, acc, ws, acc', h => by
    simp only [loopEntries, Except.ok.injEq, Prod.mk.injEq] at h
    obtain ⟨-, rfl⟩ := h
    exact ⟨rfl, fun k v hv hd => Or.inl ⟨v, hv, hd⟩⟩
  | .cons e0 rest, acc, ws, acc', h => by
    rw [loopEntries] at h
    cases hs : stepEntry acc e0 with
    | error msg =>
      rw [hs] at h; exact absurd h (by simp [Bind.bind, Except.bind])
    | ok r =>
      rw [hs] at h
      cases r with
      | none =>
        simp only [Bind.bind, Except.bind] at h
        obtain ⟨hk, hres⟩ := loopEntries_resolved rest acc ws acc' h
        refine ⟨hk, fun k v hv hd => ?_⟩
        rcases hres k v hv hd with hl | ⟨e, he, hy⟩
        · exact Or.inl hl
        · exact Or.inr ⟨e, by simp [EntryList.toL, he], hy⟩
      | some wsnd =>
        obtain ⟨ws0, n, sd⟩ := wsnd
        simp only [Bind.bind, Except.bind] at h
        cases hm : mergeSub acc n sd with
        | error msg => simp [hm] at h
        | ok acc1 =>
          simp only [hm] at h
          cases hl : loopEntries rest acc1 with
          | error msg => simp [hl] at h
          | ok wd =>
            obtain ⟨ws1, acc2⟩ := wd
            simp only [hl, Except.ok.injEq, Prod.mk.injEq] at h
            obtain ⟨-, rfl⟩ := h
            obtain ⟨hk1, hres⟩ := loopEntries_resolved rest acc1 ws1 acc2 hl
            have hkeys : dkeys acc1 = dkeys acc := mergeSub_keys hm
            refine ⟨hk1.trans hkeys, fun k v hv hd => ?_⟩
            rcases hres k v hv hd with ⟨v0, hv0, hd0⟩ | ⟨e, he, hy⟩
            · obtain ⟨vn, hvn, hacc1⟩ := mergeSub_ok_shape hm
              by_cases hk : n = k
              · subst hk
                exact Or.inr ⟨e0, by simp [EntryList.toL], stepEntry_ok_some hs⟩
              · rw [hacc1, dget_dset_ne acc n k _ hk] at hv0
                exact Or.inl ⟨v0, hv0, hd0⟩
            · rw [hkeys] at hy
              exact Or.inr ⟨e, by simp [EntryList.toL, he], hy⟩

/-- C2, counterexample.  The root declares `lib` but the `charts`
folder is present and empty, so nothing matches; the claim then demands
that `children` have no entry for `lib`, yet the returned dependencies
dictionary does contain the `lib` placeholder entry. -/
theorem claim2_counterexample :
    parseChartM (.mk (.parsed "app" "1.0.0" [⟨"lib", "2.0.0", "repo", none⟩])
        (.present .nil))
      = .ok ([warnUnresolvedDep "lib"],
          ⟨"app", "1.0.0",
            .cons "lib" (placeholderVal ⟨"lib", "2.0.0", "repo", none⟩) .nil⟩)
    ∧ EntryList.toL .nil = ([] : List Entry)
    ∧ dget (.cons "lib" (placeholderVal ⟨"lib", "2.0.0", "repo", none⟩) .nil) "lib"
        = some (placeholderVal ⟨"lib", "2.0.0", "repo", none⟩) := by
  exact ⟨rfl, rfl, rfl⟩

/-- C2 (amended): the returned dependencies dictionary has exactly the
declared keys — an unmatched declared dependency keeps its (unresolved)
placeholder entry rather than disappearing; what holds "only for
declared and matched" names is the *nested* `dependencies` slot: an
entry carries one only when its key is declared and some `charts`
listing entry (a directory named after a declared dependency, or a
safely extracted archive) resolved to a chart of that name. -/
theorem claim2_amended (name version : String) (declared : List DeclaredDep)
    (cdir : ChartsDir) (ws : List String) (m : Meta)
    (h : parseChartM (.mk (.parsed name version declared) cdir) = .ok (ws, m)) :
    dkeys m.deps = dkeys (buildDeps declared)
    ∧ (∀ k, dmem m.deps k = true → ∃ d ∈ declared, d.name = k)
    ∧ (∀ k v, dget m.deps k = some v → (vget v "dependencies").isSome = true →
        ∃ e ∈ entriesOf cdir, YieldsK (dkeys (buildDeps declared)) e k) := by
  cases cdir with
  | absent =>
    cases he : disEmpty (buildDeps declared) with
    | true =>
      simp only [parseChartM, he, if_true, Except.ok.injEq, Prod.mk.injEq] at h
      obtain ⟨-, rfl⟩ := h
      refine ⟨rfl, fun k hk => exists_declared_of_dmem_buildDeps hk, ?_⟩
      intro k v hv hd
      obtain ⟨d, -, -, rfl⟩ := dget_buildDeps hv
      rw [(placeholderVal_fields d).2.2.2.2] at hd
      exact absurd hd (by simp)
    | false =>
      simp only [parseChartM, he, if_false, Bool.false_eq_true,
        Except.ok.injEq, Prod.mk.injEq] at h
      obtain ⟨-, rfl⟩ := h
      refine ⟨rfl, fun k hk => exists_declared_of_dmem_buildDeps hk, ?_⟩
      intro k v hv hd
      obtain ⟨d, -, -, rfl⟩ := dget_buildDeps hv
      rw [(placeholderVal_fields d).2.2.2.2] at hd
      exact absurd hd (by simp)
  | present es =>
    cases he : disEmpty (buildDeps declared) with
    | true =>
      simp only [parseChartM, he, if_true, Except.ok.injEq, Prod.mk.injEq] at h
      obtain ⟨-, rfl⟩ := h
      refine ⟨rfl, fun k hk => exists_declared_of_dmem_buildDeps hk, ?_⟩
      intro k v hv hd
      obtain ⟨d, -, -, rfl⟩ := dget_buildDeps hv
      rw [(placeholderVal_fields d).2.2.2.2] at hd
      exact absurd hd (by simp)
    | false =>
      simp only [parseChartM, he, if_false, Bool.false_eq_true,
        Bind.bind, Except.bind] at h
      cases hl : loopEntries es (buildDeps declared) with
      | error msg => simp [hl] at h
      | ok wd =>
        obtain ⟨ws1, deps1⟩ := wd
        simp only [hl, Except.ok.injEq, Prod.mk.injEq] at h
        obtain ⟨-, rfl⟩ := h
        obtain ⟨hk, hres⟩ := loopEntries_resolved es (buildDeps declared) ws1 deps1 hl
        refine ⟨hk, ?_, ?_⟩
        · intro k hkm
          rw [dmem_eq_of_dkeys_eq hk k] at hkm
          exact exists_declared_of_dmem_buildDeps hkm
        · intro k v hv hd
          rcases hres k v hv hd with ⟨v0, hv0, hd0⟩ | ⟨e, hme, hy⟩
          · obtain ⟨d, -, -, rfl⟩ := dget_buildDeps hv0
            rw [(placeholderVal_fields d).2.2.2.2] at hd0
            exact absurd hd0 (by simp)
          · exact ⟨e, hme, hy⟩

/-- C2, witness: the amended theorem applied to the example input
(`lib` declared, vendored as `charts/lib`): its resolved entry's
`dependencies` slot is accounted for by a matching directory entry. -/
theorem claim2_amended_witness :
    dkeys (Dict.cons "lib" (.obj (.cons "name" (.str "lib")
        (.cons "version" (.str "2.0.0")
          (.cons "repository" (.str "https://example.com/charts")
            (.cons "condition" (.str "enabled")
              (.cons "dependencies" (.obj .nil) .nil)))))) .nil)
      = dkeys (buildDeps
          [⟨"lib", "2.0.0", "https://example.com/charts", some "enabled"⟩])
    ∧ ∃ e ∈ entriesOf (.present (.cons (.dir "lib" (leafChart "lib" "2.0.0")) .nil)),
        YieldsK (dkeys (buildDeps
            [⟨"lib", "2.0.0", "https://example.com/charts", some "enabled"⟩]))
          e "lib" := by
  have h := claim2_amended "app" "1.0.0"
    [⟨"lib", "2.0.0", "https://example.com/charts", some "enabled"⟩]
    (.present (.cons (.dir "lib" (leafChart "lib" "2.0.0")) .nil))
    []
    ⟨"app", "1.0.0",
      .cons "lib" (.obj (.cons "name" (.str "lib")
        (.cons "version" (.str "2.0.0")
          (.cons "repository" (.str "https://example.com/charts")
            (.cons "condition" (.str "enabled")
              (.cons "dependencies" (.obj .nil) .nil)))))) .nil⟩
    (by rfl)
  refine ⟨h.1, h.2.2 "lib" (.obj (.cons "name" (.str "lib")
    (.cons "version" (.str "2.0.0")
      (.cons "repository" (.str "https://example.com/charts")
        (.cons "condition" (.str "enabled")
          (.cons "dependencies" (.obj .nil) .nil)))))) (by rfl) (by rfl)⟩

/-- C9, counterexample.  On `cex9Tree` the builder assigns the
identifier `None__x@1__a@1__b@2` both to the grandchild at position
`[0, 0]` and to the child at position `[1]`: with unrestricted
name/version strings the path-qualified identifiers are not injective
over tree positions (note also the root's identifier `None__x@1`, not a
bare concatenation of ancestor labels). -/
theorem claim9_counterexample :
    clusterNodes cex9Tree "None"
      = .ok [([], "None__x@1"),
             ([0], "None__x@1__a@1"),
             ([0, 0], "None__x@1__a@1__b@2"),
             ([1], "None__x@1__a@1__b@2")]
    ∧ ([0, 0] : List Nat) ≠ [1] := by
  exact ⟨rfl, by decide⟩

theorem childValsD_of_depsDictOf {d : Dict} {dd : Dict}
    (h : depsDictOf d = some dd) : childValsD d = dvalues dd := by
  unfold depsDictOf at h
  unfold childValsD
  cases hg : dget d "dependencies" with
  | none =>
    rw [hg] at h
    injection h with h'
    rw [← h']
    rfl
  | some v =>
    cases v with
    | str s => rw [hg] at h; exact absurd h (by simp)
    | obj dd' =>
      rw [hg] at h
      injection h with h'
      rw [h']

theorem childValsD_cons_dep (dd : Dict) (rest : Dict) :
    childValsD (.cons "dependencies" (.obj dd) rest) = dvalues dd := by
  simp [childValsD, dget]

theorem childValsD_cons_ne {k : String} (v : Val) (rest : Dict)
    (hk : k ≠ "dependencies") :
    childValsD (.cons k v rest) = childValsD rest := by
  simp [childValsD, dget, hk]

theorem joinU_cons_cons (a b : String) (L : List String) :
    joinU ((a ++ "__" ++ b) :: L) = joinU (a :: b :: L) := by
  cases L with
  | nil => rfl
  | cons c r =>
    show (a ++ "__" ++ b) ++ "__" ++ joinU (c :: r)
      = a ++ "__" ++ (b ++ "__" ++ joinU (c :: r))
    apply strExt
    simp [String.data_append, List.append_assoc]

theorem clusterFind_cons_eq (k : String) (v : Val) (rest : Dict)
    (nodeName : String) :
    clusterFind (.cons k v rest) nodeName
      = cond (k == "dependencies")
          (match v with
           | .str _ => .error "AttributeError"
           | .obj dd => clusterChildren dd nodeName 0)
          (clusterFind rest nodeName) := by
  rw [clusterFind.eq_def]

mutual
theorem clusterNodes_ids : ∀ (v : Val) (parent : String)
    (l : List (List Nat × String)),
    clusterNodes v parent = .ok l →
    ∀ p i, (p, i) ∈ l → ∃ L, labelsAt v p = some L ∧ i = joinU (parent :: L)
  | .str s, parent, l, h => by simp [clusterNodes] at h
  | .obj d0, parent, l, h => by
    cases hlab : labelOf (.obj d0) with
    | none => simp [clusterNodes, hlab] at h
    | some lab =>
      cases hcf : clusterFind d0 (parent ++ "__" ++ lab) with
      | error msg => simp [clusterNodes, hlab, hcf] at h
      | ok children =>
        simp only [clusterNodes, hlab, hcf] at h
        have hl : l = ([], parent ++ "__" ++ lab) :: children := by
          injection h with h'
          exact h'.symm
        subst hl
        intro p i hpi
        rcases List.mem_cons.mp hpi with heq | hmem
        · rw [Prod.mk.injEq] at heq
          obtain ⟨rfl, rfl⟩ := heq
          refine ⟨[lab], ?_, ?_⟩
          · simp [labelsAt, hlab]
          · simp [joinU]
        · obtain ⟨j, p', v', L', hp, hv', hL', hiL⟩ :=
            clusterFind_ids d0 (parent ++ "__" ++ lab) children hcf p i hmem
          refine ⟨lab :: L', ?_, ?_⟩
          · subst hp
            simp [labelsAt, hlab, childVals, hv', hL']
          · rw [hiL, joinU_cons_cons]
  termination_by v => sizeOf v

theorem clusterFind_ids : ∀ (d : Dict) (nodeName : String)
    (l : List (List Nat × String)),
    clusterFind d nodeName = .ok l →
    ∀ p idn, (p, idn) ∈ l →
      ∃ j p' v' L, p = j :: p' ∧ (childValsD d)[j]? = some v'
        ∧ labelsAt v' p' = some L ∧ idn = joinU (nodeName :: L)
  | .nil, nodeName, l, h => by
    simp only [clusterFind] at h
    have hl : l = [] := by injection h with h'; exact h'.symm
    subst hl
    intro p idn hpi
    simp at hpi
  | .cons k v rest, nodeName, l, h => by
    by_cases hk : k = "dependencies"
    · subst hk
      cases v with
      | str s => simp [clusterFind] at h
      | obj dd =>
        rw [clusterFind_cons_eq, show ("dependencies" == "dependencies") = true from rfl] at h
        have h2 : clusterChildren dd nodeName 0 = .ok l := h
        intro p idn hpi
        obtain ⟨j, p', v', L, hp, hv', hL, hid⟩ :=
          clusterChildren_ids dd nodeName 0 l h2 p idn hpi
        refine ⟨j, p', v', L, by simpa using hp, ?_, hL, hid⟩
        rw [childValsD_cons_dep]
        exact hv'
    · have hb : (k == "dependencies") = false := by simp [hk]
      rw [clusterFind_cons_eq, hb] at h
      have h2 : clusterFind rest nodeName = .ok l := h
      intro p idn hpi
      obtain ⟨j, p', v', L, hp, hv', hL, hid⟩ :=
        clusterFind_ids rest nodeName l h2 p idn hpi
      refine ⟨j, p', v', L, hp, ?_, hL, hid⟩
      rw [childValsD_cons_ne v rest hk]
      exact hv'
  termination_by d => sizeOf d

theorem clusterChildren_ids : ∀ (d : Dict) (nodeName : String) (i0 : Nat)
    (l : List (List Nat × String)),
    clusterChildren d nodeName i0 = .ok l →
    ∀ p idn, (p, idn) ∈ l →
      ∃ j p' v' L, p = (i0 + j) :: p' ∧ (dvalues d)[j]? = some v'
        ∧ labelsAt v' p' = some L ∧ idn = joinU (nodeName :: L)
  | .nil, nodeName, i0, l, h => by
    simp only [clusterChildren] at h
    have hl : l = [] := by injection h with h'; exact h'.symm
    subst hl
    intro p idn hpi
    simp at hpi
  | .cons k v rest, nodeName, i0, l, h => by
    cases hcn : clusterNodes v nodeName with
    | error msg => simp [clusterChildren, hcn] at h
    | ok lv =>
      cases hcc : clusterChildren rest nodeName (i0 + 1) with
      | error msg => simp [clusterChildren, hcn, hcc] at h
      | ok lr =>
        simp only [clusterChildren, hcn, hcc] at h
        have hl : l = lv.map (fun pi => (i0 :: pi.1, pi.2)) ++ lr := by
          injection h with h'
          exact h'.symm
        subst hl
        intro p idn hpi
        rcases List.mem_append.mp hpi with hm | hm
        · obtain ⟨pi0, hmem0, heq⟩ := List.mem_map.mp hm
          obtain ⟨p0, id0⟩ := pi0
          rw [Prod.mk.injEq] at heq
          obtain ⟨hp, hid⟩ := heq
          obtain ⟨L, hL, hiL⟩ := clusterNodes_ids v nodeName lv hcn p0 id0 hmem0
          refine ⟨0, p0, v, L, ?_, by simp [dvalues], hL, ?_⟩
          · rw [← hp]
            simp
          · rw [← hid]
            exact hiL
        · obtain ⟨j, p', v', L, hp, hv', hL, hid⟩ :=
            clusterChildren_ids rest nodeName (i0 + 1) lr hcc p idn hm
          refine ⟨j + 1, p', v', L, ?_, ?_, hL, hid⟩
          · rw [hp]
            congr 1
            omega
          · simpa [dvalues] using hv'
  termination_by d => sizeOf d
end

theorem WfT_parts {d : Dict} (hw : WfT (.obj d)) :
    ∃ lab dd, labelOf (.obj d) = some lab ∧ uFree lab = true
      ∧ depsDictOf d = some dd
      ∧ List.Pairwise (fun a b => a ≠ b) ((dvalues dd).map labelOf)
      ∧ ∀ v' ∈ dvalues dd, WfT v' := by
  cases hw with
  | mk d lab dd h1 h2 h3 h4 h5 => exact ⟨lab, dd, h1, h2, h3, h4, h5⟩

theorem labelsAt_head {p : List Nat} {v : Val} {r : List String}
    (h : labelsAt v p = some r) :
    ∃ lc r', labelOf v = some lc ∧ r = lc :: r' := by
  cases p with
  | nil =>
    cases hl : labelOf v with
    | none => simp [labelsAt, hl] at h
    | some lc =>
      simp only [labelsAt, hl, Option.map_some', Option.some.injEq] at h
      exact ⟨lc, [], rfl, h.symm⟩
  | cons j p' =>
    cases hl : labelOf v with
    | none => simp [labelsAt, hl] at h
    | some lc =>
      cases hc : (childVals v)[j]? with
      | none => simp [labelsAt, hl, hc] at h
      | some c =>
        cases hr : labelsAt c p' with
        | none => simp [labelsAt, hl, hc, hr] at h
        | some r' =>
          simp only [labelsAt, hl, hc, hr, Option.some.injEq] at h
          exact ⟨lc, r', rfl, h.symm⟩

theorem childVals_obj {d : Dict} {dd : Dict} (h : depsDictOf d = some dd) :
    childVals (.obj d) = dvalues dd := by
  show childValsD d = dvalues dd
  exact childValsD_of_depsDictOf h

theorem labelsAt_uFree : ∀ (p : List Nat) (v : Val) (L : List String),
    WfT v → labelsAt v p = some L → ∀ lab ∈ L, uFree lab = true := by
  intro p
  induction p with
  | nil =>
    intro v L hw h lab0 hmem
    cases v with
    | str s => cases hw
    | obj d =>
      obtain ⟨lab, dd, h1, h2, h3, h4, h5⟩ := WfT_parts hw
      simp only [labelsAt, h1, Option.map_some', Option.some.injEq] at h
      rw [← h] at hmem
      rw [List.mem_singleton] at hmem
      subst hmem
      exact h2
  | cons j p' ih =>
    intro v L hw h lab0 hmem
    cases v with
    | str s => cases hw
    | obj d =>
      obtain ⟨lab, dd, h1, h2, h3, h4, h5⟩ := WfT_parts hw
      cases hc : (childVals (.obj d))[j]? with
      | none => simp [labelsAt, h1, hc] at h
      | some c =>
        cases hr : labelsAt c p' with
        | none => simp [labelsAt, h1, hc, hr] at h
        | some r =>
          simp only [labelsAt, h1, hc, hr, Option.some.injEq] at h
          rw [← h] at hmem
          rcases List.mem_cons.mp hmem with rfl | hmem'
          · exact h2
          · have hcmem : c ∈ dvalues dd := by
              rw [childVals_obj h3] at hc
              exact List.getElem?_mem hc
            exact ih c r (h5 c hcmem) hr lab0 hmem'

theorem pairwise_ne_of_getElem {α : Type} {l : List α} {i j : Nat} {a b : α}
    (hpw : List.Pairwise (fun a b => a ≠ b) l) (hij : i ≠ j)
    (ha : l[i]? = some a) (hb : l[j]? = some b) : a ≠ b := by
  obtain ⟨hi, hia⟩ := List.getElem?_eq_some_iff.mp ha
  obtain ⟨hj, hjb⟩ := List.getElem?_eq_some_iff.mp hb
  rcases Nat.lt_or_ge i j with hlt | hge
  · have := List.pairwise_iff_getElem.mp hpw i j hi hj hlt
    rw [hia, hjb] at this
    exact this
  · have hlt : j < i := Nat.lt_of_le_of_ne hge (fun he => hij he.symm)
    have := List.pairwise_iff_getElem.mp hpw j i hj hi hlt
    rw [hia, hjb] at this
    exact this.symm

theorem labelsAt_inj : ∀ (p1 : List Nat) (v : Val) (L : List String)
    (p2 : List Nat),
    WfT v → labelsAt v p1 = some L → labelsAt v p2 = some L → p1 = p2 := by
  intro p1
  induction p1 with
  | nil =>
    intro v L p2 hw h1 h2
    cases p2 with
    | nil => rfl
    | cons j2 p2' =>
      cases v with
      | str s => cases hw
      | obj d =>
        obtain ⟨lab, dd, hl, -, -, -, -⟩ := WfT_parts hw
        simp only [labelsAt, hl, Option.map_some', Option.some.injEq] at h1
        cases hc : (childVals (.obj d))[j2]? with
        | none => simp [labelsAt, hl, hc] at h2
        | some c =>
          cases hr : labelsAt c p2' with
          | none => simp [labelsAt, hl, hc, hr] at h2
          | some r =>
            simp only [labelsAt, hl, hc, hr, Option.some.injEq] at h2
            obtain ⟨lc, r', -, hrr⟩ := labelsAt_head hr
            rw [← h1, hrr] at h2
            exact absurd (congrArg List.length h2) (by simp)
  | cons j1 p1' ih =>
    intro v L p2 hw h1 h2
    cases v with
    | str s => cases hw
    | obj d =>
      obtain ⟨lab, dd, hl, -, h3, h4, h5⟩ := WfT_parts hw
      cases hc1 : (childVals (.obj d))[j1]? with
      | none => simp [labelsAt, hl, hc1] at h1
      | some c1 =>
        cases hr1 : labelsAt c1 p1' with
        | none => simp [labelsAt, hl, hc1, hr1] at h1
        | some r1 =>
          simp only [labelsAt, hl, hc1, hr1, Option.some.injEq] at h1
          cases p2 with
          | nil =>
            simp only [labelsAt, hl, Option.map_some', Option.some.injEq] at h2
            obtain ⟨lc, r', -, hrr⟩ := labelsAt_head hr1
            rw [← h2, hrr] at h1
            exact absurd (congrArg List.length h1) (by simp)
          | cons j2 p2' =>
            cases hc2 : (childVals (.obj d))[j2]? with
            | none => simp [labelsAt, hl, hc2] at h2
            | some c2 =>
              cases hr2 : labelsAt c2 p2' with
              | none => simp [labelsAt, hl, hc2, hr2] at h2
              | some r2 =>
                simp only [labelsAt, hl, hc2, hr2, Option.some.injEq] at h2
                have hr12 : r1 = r2 := by
                  have := h1.trans h2.symm
                  injection this
                subst hr12
                by_cases hj : j1 = j2
                · subst hj
                  have hcc : c1 = c2 := by
                    rw [hc1] at hc2
                    injection hc2
                  subst hcc
                  have hcmem : c1 ∈ dvalues dd := by
                    rw [childVals_obj h3] at hc1
                    exact List.getElem?_mem hc1
                  rw [ih c1 r1 p2' (h5 c1 hcmem) hr1 hr2]
                · obtain ⟨lc1, r1', hlc1, hrr1⟩ := labelsAt_head hr1
                  obtain ⟨lc2, r2', hlc2, hrr2⟩ := labelsAt_head hr2
                  have hlceq : lc1 = lc2 := by
                    rw [hrr1] at hrr2
                    injection hrr2
                  have hm1 : ((dvalues dd).map labelOf)[j1]? = some (some lc1) := by
                    rw [List.getElem?_map]
                    rw [childVals_obj h3] at hc1
                    rw [hc1]
                    simp [hlc1]
                  have hm2 : ((dvalues dd).map labelOf)[j2]? = some (some lc2) := by
                    rw [List.getElem?_map]
                    rw [childVals_obj h3] at hc2
                    rw [hc2]
                    simp [hlc2]
                  exact absurd (by rw [hlceq]) (pairwise_ne_of_getElem h4 hj hm1 hm2)

theorem uFree_mem {s : String} {c : Char} (h : uFree s = true)
    (hc : c ∈ s.data) : c ≠ '_' := by
  rw [uFree, List.all_eq_true] at h
  simpa using h c hc

theorem takeWhile_of_noUnderscore : ∀ (l : List Char),
    (∀ c ∈ l, c ≠ '_') → l.takeWhile (fun c => c != '_') = l := by
  intro l
  induction l with
  | nil => intro _; rfl
  | cons c cs ih =>
    intro h
    have hc : (c != '_') = true := by
      simpa using h c (by simp)
    simp only [List.takeWhile_cons, hc, if_true]
    rw [ih (fun x hx => h x (by simp [hx]))]

theorem takeWhile_append_underscore : ∀ (l1 l2 : List Char),
    (∀ c ∈ l1, c ≠ '_') →
    (l1 ++ '_' :: l2).takeWhile (fun c => c != '_') = l1 := by
  intro l1
  induction l1 with
  | nil => intro l2 _; simp [List.takeWhile_cons]
  | cons c cs ih =>
    intro l2 h
    have hc : (c != '_') = true := by
      simpa using h c (by simp)
    simp only [List.cons_append, List.takeWhile_cons, hc, if_true]
    rw [ih l2 (fun x hx => h x (by simp [hx]))]

theorem joinU_data_cons_cons (a b : String) (r : List String) :
    (joinU (a :: b :: r)).data
      = a.data ++ '_' :: '_' :: (joinU (b :: r)).data := by
  show (a ++ "__" ++ joinU (b :: r)).data = _
  simp [String.data_append]

/-- The non-underscore prefix of a `__`-join whose elements are all
underscore-free recovers the first element. -/
theorem joinU_head_take (a : String) (L : List String)
    (ha : uFree a = true) (hL : ∀ x ∈ L, uFree x = true) :
    (joinU (a :: L)).data.takeWhile (fun c => c != '_') = a.data := by
  cases L with
  | nil =>
    exact takeWhile_of_noUnderscore a.data (fun c hc => uFree_mem ha hc)
  | cons b r =>
    rw [joinU_data_cons_cons]
    exact takeWhile_append_underscore a.data ('_' :: (joinU (b :: r)).data)
      (fun c hc => uFree_mem ha hc)

/-- `__`-joins of underscore-free label lists sharing their first
element are injective in the remaining labels. -/
theorem joinU_inj_tail : ∀ (L1 : List String) (a : String) (L2 : List String),
    uFree a = true → (∀ x ∈ L1, uFree x = true) → (∀ x ∈ L2, uFree x = true) →
    joinU (a :: L1) = joinU (a :: L2) → L1 = L2 := by
  intro L1
  induction L1 with
  | nil =>
    intro a L2 _ _ _ h
    cases L2 with
    | nil => rfl
    | cons b r =>
      have hd := congrArg String.data h
      rw [joinU_data_cons_cons] at hd
      have : (joinU ([a] : List String)).data = a.data := rfl
      rw [this] at hd
      exact absurd hd (by simp)
  | cons b1 r1 ih =>
    intro a L2 ha h1 h2 h
    cases L2 with
    | nil =>
      have hd := congrArg String.data h
      rw [joinU_data_cons_cons] at hd
      have h0 : (joinU ([a] : List String)).data = a.data := rfl
      rw [h0] at hd
      exact absurd hd.symm (by simp)
    | cons b2 r2 =>
      have hd := congrArg String.data h
      rw [joinU_data_cons_cons, joinU_data_cons_cons] at hd
      have hd2 := List.append_cancel_left hd
      injection hd2 with _ hd3
      injection hd3 with _ hd4
      have hj : joinU (b1 :: r1) = joinU (b2 :: r2) := strExt hd4
      have hb1 : uFree b1 = true := h1 b1 (by simp)
      have hb2 : uFree b2 = true := h2 b2 (by simp)
      have ht1 := joinU_head_take b1 r1 hb1 (fun x hx => h1 x (by simp [hx]))
      have ht2 := joinU_head_take b2 r2 hb2 (fun x hx => h2 x (by simp [hx]))
      have hbeq : b1 = b2 := by
        apply strExt
        rw [← ht1, ← ht2, hj]
      subst hbeq
      rw [ih b1 r2 hb1 (fun x hx => h1 x (by simp [hx]))
        (fun x hx => h2 x (by simp [hx])) hj]

/-- C9 (amended): the builder's identifiers follow the path-qualified
scheme `id = parent_id ++ "__" ++ own label` with the root's absent
parent rendered as `"None"` (first conjunct: every recorded identifier
is the `__`-join of `"None"` and the labels along its position).  On
well-formed trees — labels free of underscores and sibling labels
distinct — the assignment is injective over tree positions (second
conjunct); with unrestricted name/version strings it is not (see the
counterexample). -/
theorem claim9_amended (v : Val) (l : List (List Nat × String))
    (hw : WfT v) (h : clusterNodes v "None" = .ok l) :
    (∀ p i, (p, i) ∈ l → ∃ L, labelsAt v p = some L ∧ i = joinU ("None" :: L))
    ∧ ∀ p1 i1 p2 i2, (p1, i1) ∈ l → (p2, i2) ∈ l → i1 = i2 → p1 = p2 := by
  have hids := clusterNodes_ids v "None" l h
  refine ⟨hids, ?_⟩
  intro p1 i1 p2 i2 h1m h2m hieq
  obtain ⟨L1, hL1, hi1⟩ := hids p1 i1 h1m
  obtain ⟨L2, hL2, hi2⟩ := hids p2 i2 h2m
  have hU1 : ∀ x ∈ L1, uFree x = true :=
    fun x hx => labelsAt_uFree p1 v L1 hw hL1 x hx
  have hU2 : ∀ x ∈ L2, uFree x = true :=
    fun x hx => labelsAt_uFree p2 v L2 hw hL2 x hx
  have hj : joinU ("None" :: L1) = joinU ("None" :: L2) := by
    rw [← hi1, ← hi2, hieq]
  have hLeq : L1 = L2 := joinU_inj_tail L1 "None" L2 (by decide) hU1 hU2 hj
  subst hLeq
  exact labelsAt_inj p1 v L1 p2 hw hL1 hL2

theorem wtree9Lib_wf : WfT (.obj wtree9LibD) := by
  apply WfT.mk wtree9LibD "lib@2.0.0" .nil rfl (by decide) rfl
  · simp [dvalues]
  · intro v' hv'
    simp [dvalues] at hv'

theorem wtree9_wf : WfT wtree9 := by
  apply WfT.mk wtree9D "app@1.0.0" (.cons "lib" (.obj wtree9LibD) .nil)
    rfl (by decide) rfl
  · simp [dvalues]
  · intro v' hv'
    simp only [dvalues, List.mem_singleton, List.not_mem_nil, or_false] at hv'
    rw [hv']
    exact wtree9Lib_wf

/-- C9, witness for the amended theorem on the concrete well-formed
tree `app@1.0.0 → lib@2.0.0`: the recorded identifier at position `[0]`
is the join of `None` with the label path, and the (trivial) identity
instance of injectivity. -/
theorem claim9_amended_witness :
    (∃ L, labelsAt wtree9 [0] = some L
      ∧ "None__app@1.0.0__lib@2.0.0" = joinU ("None" :: L))
    ∧ ([] : List Nat) = [] := by
  have h := claim9_amended wtree9
    [([], "None__app@1.0.0"), ([0], "None__app@1.0.0__lib@2.0.0")]
    wtree9_wf rfl
  exact ⟨h.1 [0] "None__app@1.0.0__lib@2.0.0" (by simp),
    h.2 [] "None__app@1.0.0" [] "None__app@1.0.0" (by simp) (by simp) rfl⟩

end HelmDeps

